import Mathlib

/-!
Verification of the segment-transform-validate-retry-reassemble pipeline of the
markdown-translator repository.

JavaScript strings are modelled as `List Char`.  The repository measures every
piece of text with `text.split('\n').length`, so the central modelling objects
are `splitNl` (JavaScript `String.prototype.split('\n')`, which always returns
a non-empty array) and `joinNl` (JavaScript `Array.prototype.join('\n')`).
-/

/-- JavaScript `text.split('\n')`: splits on every `'\n'`, never returns an
empty array (`"".split('\n') = [""]`).  The result is always non-empty, so the
`headI`/`tail` accessors below never see their default case. -/
def splitNl : List Char → List (List Char)
  | [] => [[]]
  | c :: rest =>
    let r := splitNl rest
    if c = '\n' then [] :: r else (c :: r.headI) :: r.tail

/-- JavaScript `array.join('\n')`: single `'\n'` separator between adjacent
elements, no trailing separator. -/
def joinNl : List (List Char) → List Char
  | [] => []
  | [l] => l
  | l :: ls => l ++ '\n' :: joinNl ls

/-- The repository's line count of a text: `text.split('\n').length`. -/
def lineCount (s : List Char) : Nat := (splitNl s).length

theorem splitNl_nil : splitNl [] = [[]] := rfl

theorem splitNl_cons (c : Char) (rest : List Char) :
    splitNl (c :: rest) =
      if c = '\n' then [] :: splitNl rest
      else (c :: (splitNl rest).headI) :: (splitNl rest).tail := rfl

theorem splitNl_ne_nil (s : List Char) : splitNl s ≠ [] := by
  cases s with
  | nil => simp [splitNl]
  | cons c rest => rw [splitNl_cons]; split <;> simp

theorem joinNl_cons_cons (l m : List Char) (ls : List (List Char)) :
    joinNl (l :: m :: ls) = l ++ '\n' :: joinNl (m :: ls) := rfl

theorem joinNl_splitNl (s : List Char) : joinNl (splitNl s) = s := by
  induction s with
  | nil => simp [splitNl, joinNl]
  | cons c rest ih =>
    obtain ⟨l, ls, h⟩ : ∃ l ls, splitNl rest = l :: ls := by
      cases h : splitNl rest with
      | nil => exact absurd h (splitNl_ne_nil rest)
      | cons l ls => exact ⟨l, ls, rfl⟩
    rw [h] at ih
    rw [splitNl_cons, h]
    by_cases hc : c = '\n'
    · subst hc
      simp [joinNl_cons_cons, ih]
    · rw [if_neg hc]
      simp only [List.headI, List.tail_cons]
      cases ls with
      | nil => simp only [joinNl] at ih ⊢; rw [ih]
      | cons m ms =>
        rw [joinNl_cons_cons] at ih ⊢
        simp only [List.cons_append, ih]

theorem splitNl_no_newline (s : List Char) :
    ∀ l ∈ splitNl s, '\n' ∉ l := by
  induction s with
  | nil => intro l hl; simp [splitNl] at hl; simp [hl]
  | cons c rest ih =>
    intro l hl
    obtain ⟨m, ms, h⟩ : ∃ m ms, splitNl rest = m :: ms := by
      cases h : splitNl rest with
      | nil => exact absurd h (splitNl_ne_nil rest)
      | cons m ms => exact ⟨m, ms, rfl⟩
    rw [splitNl_cons, h] at hl
    rw [h] at ih
    by_cases hc : c = '\n'
    · rw [if_pos hc] at hl
      rcases List.mem_cons.mp hl with hl | hl
      · simp [hl]
      · exact ih l hl
    · rw [if_neg hc] at hl
      simp only [List.headI, List.tail_cons] at hl
      rcases List.mem_cons.mp hl with hl | hl
      · subst hl
        intro hmem
        rcases List.mem_cons.mp hmem with h1 | h1
        · exact hc h1.symm
        · exact ih m (List.mem_cons_self m ms) h1
      · exact ih l (List.mem_cons_of_mem m hl)

/-- Splitting a newline-free text is the identity (one line). -/
theorem splitNl_of_no_newline (s : List Char) (h : '\n' ∉ s) :
    splitNl s = [s] := by
  induction s with
  | nil => simp [splitNl]
  | cons c rest ih =>
    simp only [List.mem_cons, not_or] at h
    have hc : ¬c = '\n' := fun hh => h.1 hh.symm
    rw [splitNl_cons, if_neg hc, ih h.2]
    simp [List.headI]

/-- Splitting `a ++ '\n' :: t` with `a` newline-free prepends `a` as one line. -/
theorem splitNl_append_newline_cons (a t : List Char) (h : '\n' ∉ a) :
    splitNl (a ++ '\n' :: t) = a :: splitNl t := by
  induction a with
  | nil =>
    obtain ⟨l, ls, ht⟩ : ∃ l ls, splitNl t = l :: ls := by
      cases ht : splitNl t with
      | nil => exact absurd ht (splitNl_ne_nil t)
      | cons l ls => exact ⟨l, ls, rfl⟩
    simp [splitNl_cons, ht]
  | cons c a' ih =>
    simp only [List.mem_cons, not_or] at h
    have hc : ¬c = '\n' := fun hh => h.1 hh.symm
    rw [List.cons_append, splitNl_cons, ih h.2, if_neg hc]
    simp [List.headI]

/-- Joining newline-free lines and re-splitting recovers the lines. -/
theorem splitNl_joinNl (gs : List (List Char)) (hne : gs ≠ [])
    (h : ∀ l ∈ gs, '\n' ∉ l) : splitNl (joinNl gs) = gs := by
  induction gs with
  | nil => exact absurd rfl hne
  | cons g gs' ih =>
    cases gs' with
    | nil =>
      simp only [joinNl]
      exact splitNl_of_no_newline g (h g (List.mem_cons_self g []))
    | cons m ms =>
      rw [joinNl_cons_cons,
        splitNl_append_newline_cons g _ (h g (List.mem_cons_self g _)),
        ih (by simp) (fun l hl => h l (List.mem_cons_of_mem g hl))]

/-- `lineCount` is the number of `'\n'` characters plus one. -/
theorem lineCount_eq_count (s : List Char) :
    lineCount s = s.count '\n' + 1 := by
  induction s with
  | nil => simp [lineCount, splitNl]
  | cons c rest ih =>
    obtain ⟨l, ls, h⟩ : ∃ l ls, splitNl rest = l :: ls := by
      cases h : splitNl rest with
      | nil => exact absurd h (splitNl_ne_nil rest)
      | cons l ls => exact ⟨l, ls, rfl⟩
    simp only [lineCount, splitNl_cons, h] at ih ⊢
    by_cases hc : c = '\n'
    · subst hc
      simp only [if_pos rfl, List.length_cons, List.count_cons]
      simp only [List.length_cons] at ih
      simp [ih]
    · rw [if_neg hc]
      simp only [List.headI, List.tail_cons, List.length_cons,
        List.count_cons] at ih ⊢
      have hcs : ¬('\n' = c) := fun hh => hc hh.symm
      simp [hcs, hc, ih]

theorem lineCount_append_newline_cons (a b : List Char) :
    lineCount (a ++ '\n' :: b) = lineCount a + lineCount b := by
  simp only [lineCount_eq_count, List.count_append, List.count_cons]
  simp
  omega

/-!
## Segmenter (src/semantic-chunker.ts)

`chunkMarkdown` splits on ATX headings of level 1-3, detected with the
JavaScript regular expression test `line.match(/^(#{1,3})\s+(.+)/)`.
-/

/-- A character of the JavaScript `\s` class (the set used by `\s` and by
`String.prototype.trim`). -/
def isJsWhitespace (c : Char) : Bool :=
  c = '\t' || c = '\n' || c = '\u000b' || c = '\u000c' || c = '\r' ||
  c = ' ' || c = '\u00a0' || c = '\u1680' ||
  ('\u2000' ≤ c && c ≤ '\u200a') ||
  c = '\u2028' || c = '\u2029' || c = '\u202f' || c = '\u205f' ||
  c = '\u3000' || c = '\ufeff'

/-- A character matched by the JavaScript regex `.` (anything but a line
terminator). -/
def matchesDot (c : Char) : Bool :=
  !(c = '\n' || c = '\r' || c = '\u2028' || c = '\u2029')

/-- Backtracking search completing `\s*(.+)`: after the mandatory first
whitespace character, either the next character matches `.` or it is further
whitespace consumed by `\s+`. -/
def dotSearch : List Char → Bool
  | [] => false
  | c :: rest => matchesDot c || (isJsWhitespace c && dotSearch rest)

/-- Whether `\s+(.+)` matches a prefix of the given characters. -/
def wsThenText : List Char → Bool
  | [] => false
  | c :: rest => isJsWhitespace c && dotSearch rest

/-- JavaScript regex test `/^(#{1,3})\s+(.+)/` on one line: one to three
leading `#` characters (alternatives for the counted group), then `\s+(.+)`. -/
def headingMatch : List Char → Bool
  | '#' :: t1 =>
    wsThenText t1 ||
      (match t1 with
       | '#' :: t2 =>
         wsThenText t2 ||
           (match t2 with
            | '#' :: t3 => wsThenText t3
            | _ => false)
       | _ => false)
  | _ => false

/-- The backtick character (codepoint 96). -/
def backtickChar : Char := Char.ofNat 96

/-- JavaScript `content.includes('```')` (three consecutive backticks). -/
def hasTripleBacktick : List Char → Bool
  | [] => false
  | c :: rest =>
    (c = backtickChar &&
      (match rest with
       | c2 :: c3 :: _ => c2 = backtickChar && c3 = backtickChar
       | _ => false)) || hasTripleBacktick rest

/-- JavaScript `String.prototype.trim`. -/
def jsTrim (l : List Char) : List Char :=
  ((l.dropWhile isJsWhitespace).reverse.dropWhile isJsWhitespace).reverse

/-- JavaScript `trimmed.startsWith('```')`. -/
def startsWithTripleBacktick (l : List Char) : Bool :=
  match l with
  | c1 :: c2 :: c3 :: _ =>
    c1 = backtickChar && c2 = backtickChar && c3 = backtickChar
  | _ => false

/-- ASCII letter test `/[a-zA-Z]/.test(line)` on one character. -/
def isAsciiLetter (c : Char) : Bool :=
  ('a' ≤ c && c ≤ 'z') || ('A' ≤ c && c ≤ 'Z')

/-- Loop of `shouldTranslateChunk`: walks the lines, toggling the code-block
flag on lines whose trimmed form starts with a fence, and reports a
translatable line (non-empty outside code, containing an ASCII letter). -/
def shouldTranslateGo : List (List Char) → Bool → Bool
  | [], _ => false
  | line :: rest, inCodeBlock =>
    let trimmed := jsTrim line
    if startsWithTripleBacktick trimmed then
      shouldTranslateGo rest (!inCodeBlock)
    else if !inCodeBlock && !trimmed.isEmpty && line.any isAsciiLetter then
      true
    else
      shouldTranslateGo rest inCodeBlock

/-- `shouldTranslateChunk` of src/semantic-chunker.ts. -/
def shouldTranslateChunk (content : List Char) : Bool :=
  shouldTranslateGo (splitNl content) false

/-- The `ChunkInfo` record of src/types.ts. -/
structure ChunkInfo where
  content : List Char
  startLine : Nat
  endLine : Nat
  hasCodeBlocks : Bool
  needsTranslation : Bool
deriving DecidableEq

/-- `createChunkInfo` of src/semantic-chunker.ts. -/
def createChunkInfo (lines : List (List Char)) (startLine endLine : Nat) :
    ChunkInfo :=
  let content := joinNl lines
  { content := content
    startLine := startLine
    endLine := endLine
    hasCodeBlocks := hasTripleBacktick content
    needsTranslation := shouldTranslateChunk content }

/-- The scanning loop of `chunkMarkdown`: `rem` are the unread lines,
`lineNumber` is the 1-indexed number of the head of `rem`,
`currentChunkLines` and `currentStartLine` are the accumulator state of the
source. -/
def chunkLoop :
    List (List Char) → Nat → List (List Char) → Nat → List ChunkInfo
  | [], _, currentChunkLines, currentStartLine =>
    if 0 < currentChunkLines.length then
      [createChunkInfo currentChunkLines currentStartLine
        (currentStartLine + currentChunkLines.length - 1)]
    else []
  | line :: rest, lineNumber, currentChunkLines, currentStartLine =>
    if headingMatch line ∧ 0 < currentChunkLines.length then
      createChunkInfo currentChunkLines currentStartLine
          (currentStartLine + currentChunkLines.length - 1) ::
        chunkLoop rest (lineNumber + 1) [line] lineNumber
    else
      chunkLoop rest (lineNumber + 1) (currentChunkLines ++ [line])
        currentStartLine

/-- `chunkMarkdown` of src/semantic-chunker.ts. -/
def chunkMarkdown (content : List Char) : List ChunkInfo :=
  chunkLoop (splitNl content) 1 [] 1

/-- `joinChunks` of src/chunk-utils.ts: empty array gives the empty string,
one chunk is returned unchanged, otherwise `chunkContents.join('\n')`. -/
def joinChunks (chunkContents : List (List Char)) : List Char :=
  if chunkContents.length = 0 then []
  else if chunkContents.length = 1 then chunkContents.headI
  else joinNl chunkContents

example : chunkMarkdown ("# Title\n\nBody text.".toList) =
    [createChunkInfo ["# Title".toList, [], "Body text.".toList] 1 3] := by
  decide

example : (chunkMarkdown ("# H1\n\n## H2\n\nbody".toList)).map
    (fun c => (c.startLine, c.endLine)) = [(1, 2), (3, 5)] := by decide

example :
    joinChunks ((chunkMarkdown ("\n# a\ntext ok\n".toList)).map
      ChunkInfo.content) = "\n# a\ntext ok\n".toList := by decide

theorem joinNl_singleton (l : List Char) : joinNl [l] = l := rfl

theorem joinChunks_eq_joinNl (cs : List (List Char)) :
    joinChunks cs = joinNl cs := by
  match cs with
  | [] => rfl
  | [c] => rfl
  | a :: b :: rest => simp [joinChunks, joinNl_cons_cons]

theorem chunkLoop_ne_nil (rem : List (List Char)) :
    ∀ n cur s, cur ≠ [] → chunkLoop rem n cur s ≠ [] := by
  induction rem with
  | nil =>
    intro n cur s hcur
    have : 0 < cur.length := List.length_pos.mpr hcur
    simp [chunkLoop, this]
  | cons line rest ih =>
    intro n cur s hcur
    have : 0 < cur.length := List.length_pos.mpr hcur
    simp only [chunkLoop]
    split
    · simp
    · exact ih (n + 1) (cur ++ [line]) s (by simp)

theorem joinNl_append (a b : List (List Char)) (ha : a ≠ []) (hb : b ≠ []) :
    joinNl (a ++ b) = joinNl a ++ '\n' :: joinNl b := by
  induction a with
  | nil => exact absurd rfl ha
  | cons g a' ih =>
    cases a' with
    | nil =>
      cases b with
      | nil => exact absurd rfl hb
      | cons m ms => simp [joinNl, joinNl_cons_cons]
    | cons g2 a'' =>
      have : (g2 :: a'') ++ b = g2 :: (a'' ++ b) := rfl
      calc joinNl ((g :: g2 :: a'') ++ b)
          = g ++ '\n' :: joinNl ((g2 :: a'') ++ b) := by
            simp [joinNl_cons_cons]
        _ = g ++ '\n' :: (joinNl (g2 :: a'') ++ '\n' :: joinNl b) := by
            rw [ih (by simp)]
        _ = joinNl (g :: g2 :: a'') ++ '\n' :: joinNl b := by
            simp [joinNl_cons_cons]

/-- Core invariant behind the byte-for-byte round trip: the loop emits chunks
whose joined contents are exactly the joined pending and remaining lines. -/
theorem chunkLoop_join (rem : List (List Char)) :
    ∀ n cur s, cur ≠ [] →
      joinNl ((chunkLoop rem n cur s).map ChunkInfo.content) =
        joinNl (cur ++ rem) := by
  induction rem with
  | nil =>
    intro n cur s hcur
    have hlen : 0 < cur.length := List.length_pos.mpr hcur
    simp [chunkLoop, hlen, createChunkInfo, joinNl_singleton]
  | cons line rest ih =>
    intro n cur s hcur
    have hlen : 0 < cur.length := List.length_pos.mpr hcur
    simp only [chunkLoop]
    split
    · obtain ⟨m, ms, hS⟩ : ∃ m ms,
          chunkLoop rest (n + 1) [line] n = m :: ms := by
        cases hS : chunkLoop rest (n + 1) [line] n with
        | nil => exact absurd hS (chunkLoop_ne_nil rest (n + 1) [line] n (by simp))
        | cons m ms => exact ⟨m, ms, rfl⟩
      have hrec := ih (n + 1) [line] n (by simp)
      rw [hS] at hrec
      simp only [List.map_cons] at hrec
      simp only [List.map_cons, hS, joinNl_cons_cons, createChunkInfo]
      rw [hrec]
      have : cur ++ line :: rest = cur ++ ([line] ++ rest) := by simp
      rw [this, joinNl_append cur ([line] ++ rest) hcur (by simp)]
    · have hrec := ih (n + 1) (cur ++ [line]) s (by simp)
      rw [hrec]
      simp

/-- C1 (confirmed): splitting any document into chunks and joining the chunk
contents returns the document byte-for-byte. -/
theorem chunkMarkdown_joinChunks_roundtrip (D : List Char) :
    joinChunks ((chunkMarkdown D).map ChunkInfo.content) = D := by
  obtain ⟨l, ls, h⟩ : ∃ l ls, splitNl D = l :: ls := by
    cases h : splitNl D with
    | nil => exact absurd h (splitNl_ne_nil D)
    | cons l ls => exact ⟨l, ls, rfl⟩
  rw [joinChunks_eq_joinNl]
  unfold chunkMarkdown
  rw [h]
  have step : chunkLoop (l :: ls) 1 [] 1 = chunkLoop ls 2 [l] 1 := by
    simp [chunkLoop]
  rw [step, chunkLoop_join ls 2 [l] 1 (by simp)]
  have : [l] ++ ls = l :: ls := rfl
  rw [this, ← h, joinNl_splitNl]

theorem lineCount_joinNl (cur : List (List Char)) (hcur : cur ≠ [])
    (hno : ∀ l ∈ cur, '\n' ∉ l) : lineCount (joinNl cur) = cur.length := by
  unfold lineCount
  rw [splitNl_joinNl cur hcur hno]

/-- Core invariant behind the tiling property: starting from pending lines
`cur` at line `s` (the next line number therefore being `s + cur.length`),
the emitted chunks start at `s`, are adjacent, end at the last input line,
and their contents' line counts sum to the number of input lines. -/
theorem chunkLoop_tiling (rem : List (List Char)) :
    ∀ cur s, cur ≠ [] →
      (∀ x ∈ cur ++ rem, '\n' ∉ x) →
      ((chunkLoop rem (s + cur.length) cur s).map
          ChunkInfo.startLine).head? = some s ∧
      List.Chain' (fun a b => a.endLine + 1 = b.startLine)
        (chunkLoop rem (s + cur.length) cur s) ∧
      ((chunkLoop rem (s + cur.length) cur s).map
          ChunkInfo.endLine).getLast? = some (s + cur.length + rem.length - 1) ∧
      ((chunkLoop rem (s + cur.length) cur s).map
          (fun ci => lineCount ci.content)).sum = cur.length + rem.length := by
  induction rem with
  | nil =>
    intro cur s hcur hno
    have hlen : 0 < cur.length := List.length_pos.mpr hcur
    have hcount : lineCount (joinNl cur) = cur.length :=
      lineCount_joinNl cur hcur (fun l hl => hno l (by simp [hl]))
    simp [chunkLoop, hlen, createChunkInfo, hcount]
  | cons line rest ih =>
    intro cur s hcur hno
    have hlen : 0 < cur.length := List.length_pos.mpr hcur
    simp only [chunkLoop]
    split
    · -- a heading starts a new chunk
      have harg : (s + cur.length) + 1 = (s + cur.length) + ([line] : List (List Char)).length := by
        simp
      have hno' : ∀ x ∈ ([line] : List (List Char)) ++ rest, '\n' ∉ x := by
        intro x hx
        apply hno
        simp only [List.mem_append, List.mem_cons] at hx ⊢
        tauto
      obtain ⟨hhead, hchain, hlast, hsum⟩ := ih [line] (s + cur.length) (by simp) hno'
      rw [← harg] at hhead hchain hlast hsum
      obtain ⟨m, ms, hS⟩ : ∃ m ms,
          chunkLoop rest (s + cur.length + 1) [line] (s + cur.length) = m :: ms := by
        cases hS : chunkLoop rest (s + cur.length + 1) [line] (s + cur.length) with
        | nil =>
          exact absurd hS
            (chunkLoop_ne_nil rest (s + cur.length + 1) [line] (s + cur.length) (by simp))
        | cons m ms => exact ⟨m, ms, rfl⟩
      rw [hS] at hhead hchain hlast hsum ⊢
      simp only [List.map_cons, List.head?_cons, Option.some.injEq] at hhead
      have hcount : lineCount (joinNl cur) = cur.length :=
        lineCount_joinNl cur hcur (fun l hl => hno l (by simp [hl]))
      refine ⟨?_, ?_, ?_, ?_⟩
      · simp [createChunkInfo]
      · rw [List.chain'_cons]
        constructor
        · show (createChunkInfo cur s (s + cur.length - 1)).endLine + 1 = m.startLine
          simp only [createChunkInfo]
          omega
        · exact hchain
      · simp only [List.map_cons, List.getLast?_cons_cons]
        simp only [List.map_cons] at hlast
        rw [hlast]
        congr 1
        simp only [List.length_cons, List.length_singleton, List.length_nil] at *
        omega
      · simp only [List.map_cons, List.sum_cons] at hsum ⊢
        simp only [createChunkInfo, hcount]
        simp only [List.length_cons, List.length_singleton, List.length_nil] at *
        omega
    · -- the line joins the current chunk
      have harg : s + (cur ++ [line]).length = (s + cur.length) + 1 := by
        simp only [List.length_append, List.length_cons, List.length_nil]
        omega
      have hno' : ∀ x ∈ (cur ++ [line]) ++ rest, '\n' ∉ x := by
        intro x hx
        apply hno
        simp only [List.mem_append, List.mem_cons] at hx ⊢
        tauto
      obtain ⟨hhead, hchain, hlast, hsum⟩ := ih (cur ++ [line]) s (by simp) hno'
      rw [harg] at hhead hchain hlast hsum
      refine ⟨hhead, hchain, ?_, ?_⟩
      · rw [hlast]
        congr 1
        simp only [List.length_append, List.length_cons, List.length_singleton, List.length_nil] at *
        omega
      · rw [hsum]
        simp only [List.length_append, List.length_cons, List.length_singleton, List.length_nil]
        omega

/-- C5 (confirmed): the chunks tile the document exactly — first chunk starts
at line 1, adjacent chunks are contiguous, the last chunk ends at the last
line, and the chunk contents' line counts sum to the document line count. -/
theorem chunkMarkdown_tiles (D : List Char) :
    ((chunkMarkdown D).map ChunkInfo.startLine).head? = some 1 ∧
    List.Chain' (fun a b => a.endLine + 1 = b.startLine) (chunkMarkdown D) ∧
    ((chunkMarkdown D).map ChunkInfo.endLine).getLast? = some (lineCount D) ∧
    ((chunkMarkdown D).map (fun ci => lineCount ci.content)).sum =
      lineCount D := by
  obtain ⟨l, ls, h⟩ : ∃ l ls, splitNl D = l :: ls := by
    cases h : splitNl D with
    | nil => exact absurd h (splitNl_ne_nil D)
    | cons l ls => exact ⟨l, ls, rfl⟩
  have hD : lineCount D = ls.length + 1 := by
    simp [lineCount, h]
  unfold chunkMarkdown
  rw [h]
  have step : chunkLoop (l :: ls) 1 [] 1 = chunkLoop ls 2 [l] 1 := by
    simp [chunkLoop]
  rw [step]
  have hno : ∀ x ∈ ([l] : List (List Char)) ++ ls, '\n' ∉ x := by
    intro x hx
    apply splitNl_no_newline D
    rw [h]
    simpa using hx
  have harg : (2 : Nat) = 1 + ([l] : List (List Char)).length := by simp
  obtain ⟨hhead, hchain, hlast, hsum⟩ := chunkLoop_tiling ls [l] 1 (by simp) hno
  rw [← harg] at hhead hchain hlast hsum
  refine ⟨hhead, hchain, ?_, ?_⟩
  · rw [hlast, hD]
    congr 1
    omega
  · rw [hsum, hD]
    simp only [List.length_singleton]
    omega

/-!
## Reassembler (src/chunk-utils.ts, claim C8)
-/

/-- For a non-empty chunk list the joined text's line count is the sum of the
chunks' line counts (each chunk may itself contain newlines). -/
theorem lineCount_joinNl_sum (cs : List (List Char)) (hne : cs ≠ []) :
    lineCount (joinNl cs) = (cs.map lineCount).sum := by
  induction cs with
  | nil => exact absurd rfl hne
  | cons c cs' ih =>
    cases cs' with
    | nil => simp [joinNl_singleton]
    | cons m ms =>
      rw [joinNl_cons_cons, lineCount_append_newline_cons,
        ih (by simp)]
      simp

/-- C8 counterexample: on the empty chunk list the invariant
`lineCount(join(segments)) == sum(lineCount(s))` fails, because
`lineCount("") = 1` while the empty sum is `0`. -/
theorem joinChunks_lineCount_fails_on_nil :
    lineCount (joinChunks ([] : List (List Char))) ≠
      (([] : List (List Char)).map lineCount).sum := by
  decide

/-- C8 as amended: zero chunks give the empty string, one chunk is returned
unchanged, any list is joined with a single newline separator, and for every
NON-EMPTY list the joined line count is the sum of the chunk line counts. -/
theorem joinChunks_spec :
    joinChunks ([] : List (List Char)) = [] ∧
    (∀ c : List Char, joinChunks [c] = c) ∧
    (∀ cs : List (List Char), joinChunks cs = joinNl cs) ∧
    (∀ cs : List (List Char), cs ≠ [] →
      lineCount (joinChunks cs) = (cs.map lineCount).sum) := by
  refine ⟨rfl, fun c => rfl, joinChunks_eq_joinNl, fun cs hne => ?_⟩
  rw [joinChunks_eq_joinNl]
  exact lineCount_joinNl_sum cs hne

/-- Witness for the hypothesis of `joinChunks_spec`. -/
theorem joinChunks_spec_witness :
    lineCount (joinChunks ["ab\nc".toList, "d".toList]) =
      ((["ab\nc".toList, "d".toList]).map lineCount).sum :=
  joinChunks_spec.2.2.2 ["ab\nc".toList, "d".toList] (by decide)

/-!
## LineCountValidator (src/line-count-validator.ts)
-/

/-- The `ValidationResult` shape `{ isValid, adjustedText }`. -/
structure ValidationResult where
  isValid : Bool
  adjustedText : List Char
deriving DecidableEq

/-- JavaScript `text.endsWith('\n')`. -/
def endsWithNewline (l : List Char) : Bool := l.getLast? = some '\n'

/-- `validateLineCount` of src/line-count-validator.ts.  The source's two
inner re-checks (after `slice(0, -1)` and after appending `'\n'`) are written
here as extra conjuncts of the same branch condition; when an inner check
fails control falls through to the next branch exactly as in the source. -/
def validateLineCount (originalText translatedText : List Char) :
    ValidationResult :=
  let originalLines := splitNl originalText
  let translatedLines := splitNl translatedText
  if originalLines.length = translatedLines.length then
    { isValid := true, adjustedText := translatedText }
  else if translatedLines.length = originalLines.length + 1 ∧
      endsWithNewline translatedText = true ∧
      originalLines.length = (splitNl translatedText.dropLast).length then
    { isValid := true, adjustedText := translatedText.dropLast }
  else if originalLines.length = translatedLines.length + 1 ∧
      originalLines.length = (splitNl (translatedText ++ ['\n'])).length then
    { isValid := true, adjustedText := translatedText ++ ['\n'] }
  else
    { isValid := false, adjustedText := translatedText }

/-- The nearby statement of claim C2, written from the specification's own
case analysis, to be compared with `validateLineCount`. -/
def validateLineCountSpec (original candidate : List Char) :
    ValidationResult :=
  if lineCount original = lineCount candidate then
    { isValid := true, adjustedText := candidate }
  else if lineCount candidate = lineCount original + 1 ∧
      endsWithNewline candidate = true then
    { isValid := true, adjustedText := candidate.dropLast }
  else if lineCount original = lineCount candidate + 1 then
    { isValid := true, adjustedText := candidate ++ ['\n'] }
  else
    { isValid := false, adjustedText := candidate }

theorem lineCount_append_newline (s : List Char) :
    lineCount (s ++ ['\n']) = lineCount s + 1 := by
  have h := lineCount_append_newline_cons s []
  have h0 : lineCount ([] : List Char) = 1 := rfl
  rw [h0] at h
  exact h

theorem lineCount_dropLast_of_endsWith (c : List Char)
    (h : endsWithNewline c = true) :
    lineCount c = lineCount c.dropLast + 1 := by
  have hne : c ≠ [] := by
    intro hnil
    subst hnil
    simp [endsWithNewline] at h
  have hlast : c.getLast hne = '\n' := by
    unfold endsWithNewline at h
    rw [List.getLast?_eq_getLast c hne] at h
    simpa using h
  have hsplit : c.dropLast ++ ['\n'] = c := by
    conv_rhs => rw [← List.dropLast_append_getLast hne]
    rw [hlast]
  conv_lhs => rw [← hsplit]
  exact lineCount_append_newline c.dropLast

theorem validateLineCount_eq_spec (o c : List Char) :
    validateLineCount o c = validateLineCountSpec o c := by
  have hdef : ∀ s : List Char, (splitNl s).length = lineCount s :=
    fun s => rfl
  by_cases h1 : lineCount o = lineCount c
  · simp only [validateLineCount, validateLineCountSpec, hdef]
    rw [if_pos h1, if_pos h1]
  · by_cases h2 : lineCount c = lineCount o + 1 ∧ endsWithNewline c = true
    · have hd : lineCount o = lineCount c.dropLast := by
        have := lineCount_dropLast_of_endsWith c h2.2
        omega
      simp only [validateLineCount, validateLineCountSpec, hdef]
      rw [if_neg h1, if_neg h1, if_pos ⟨h2.1, h2.2, hd⟩, if_pos h2]
    · by_cases h3 : lineCount o = lineCount c + 1
      · have ha : lineCount o = lineCount (c ++ ['\n']) := by
          rw [lineCount_append_newline]
          omega
        have hc2 : ¬(lineCount c = lineCount o + 1 ∧
            endsWithNewline c = true ∧ lineCount o = lineCount c.dropLast) :=
          fun hh => h2 ⟨hh.1, hh.2.1⟩
        simp only [validateLineCount, validateLineCountSpec, hdef]
        rw [if_neg h1, if_neg h1, if_neg hc2, if_neg h2, if_pos ⟨h3, ha⟩,
          if_pos h3]
      · have hc2 : ¬(lineCount c = lineCount o + 1 ∧
            endsWithNewline c = true ∧ lineCount o = lineCount c.dropLast) :=
          fun hh => h2 ⟨hh.1, hh.2.1⟩
        have hc3 : ¬(lineCount o = lineCount c + 1 ∧
            lineCount o = lineCount (c ++ ['\n'])) :=
          fun hh => h3 hh.1
        simp only [validateLineCount, validateLineCountSpec, hdef]
        rw [if_neg h1, if_neg h1, if_neg hc2, if_neg h2, if_neg hc3,
          if_neg h3]

theorem validateLineCount_isValid_iff (o c : List Char) :
    (validateLineCount o c).isValid = true ↔
      (lineCount o = lineCount c ∨
       (lineCount c = lineCount o + 1 ∧ endsWithNewline c = true) ∨
       lineCount o = lineCount c + 1) := by
  rw [validateLineCount_eq_spec]
  unfold validateLineCountSpec
  split_ifs with h1 h2 h3 <;> simp [Bool.not_eq_true] at * <;> tauto

/-- C2 (confirmed): `validateLineCount` implements exactly the four cases of
the claim, and validity holds iff the line-count difference is reconciled by
the corresponding single-newline adjustment. -/
theorem validateLineCount_cases (o c : List Char) :
    validateLineCount o c = validateLineCountSpec o c ∧
    ((validateLineCount o c).isValid = true ↔
      (lineCount o = lineCount c ∨
       (lineCount c = lineCount o + 1 ∧ endsWithNewline c = true) ∨
       lineCount o = lineCount c + 1)) :=
  ⟨validateLineCount_eq_spec o c, validateLineCount_isValid_iff o c⟩

example : validateLineCount "a\nb".toList "x\ny\n".toList =
    { isValid := true, adjustedText := "x\ny".toList } := by decide

example : validateLineCount "a\nb".toList "x".toList =
    { isValid := true, adjustedText := "x\n".toList } := by decide

example : validateLineCount "a".toList "x\ny\nz".toList =
    { isValid := false, adjustedText := "x\ny\nz".toList } := by decide

example : validateLineCount "a".toList "x\ny".toList =
    { isValid := false, adjustedText := "x\ny".toList } := by decide

/-!
## Whole-document final validation (src/translation-workflow.ts, claim C7)

Step 4 of `translateMarkdownFile` runs
`validateLineCount(originalContent, finalContent)` on the reassembled
document and reports a mismatch iff `.isValid` is false; the check is a pure
function of the source text and the reassembled text only.
-/

/-- The final whole-document check of `translateMarkdownFile`. -/
def workflowFinalValidation (originalContent finalContent : List Char) :
    ValidationResult :=
  validateLineCount originalContent finalContent

/-- C7 counterexample: with source `"a\nb"` (2 lines) and final content `"a"`
(1 line) the final validation reports valid although the line counts differ,
because `validateLineCount` accepts the reconcilable off-by-one. -/
theorem workflowFinalValidation_not_strict_equality :
    (workflowFinalValidation "a\nb".toList "a".toList).isValid = true ∧
    lineCount "a".toList ≠ lineCount "a\nb".toList := by
  decide

/-- C7 as amended: the final whole-document validation marks the run valid
iff the line counts are equal or differ by a single reconcilable trailing
newline (the same predicate as the per-segment validator), as a function of
the source and reassembled text only. -/
theorem workflowFinalValidation_iff (sourceContent finalContent : List Char) :
    (workflowFinalValidation sourceContent finalContent).isValid = true ↔
      (lineCount sourceContent = lineCount finalContent ∨
       (lineCount finalContent = lineCount sourceContent + 1 ∧
         endsWithNewline finalContent = true) ∨
       lineCount sourceContent = lineCount finalContent + 1) := by
  unfold workflowFinalValidation
  exact validateLineCount_isValid_iff sourceContent finalContent

/-!
## RetryEngine (src/utils/retry.ts)

`retryUntilSuccess` runs a `for` loop of at most `maxAttempts` iterations.
Attempts are effectful JavaScript calls: each invocation may return a value or
throw, and successive invocations of the same closure may behave differently,
so an attempt is modelled as a function of the attempt number and of the
context object the engine passes in.  JavaScript's `lastResult || undefined`
coerces a falsy last result (for `string` results: the empty string) to
`undefined`; the falsiness test for the element type is a parameter.

The loop is written with explicit fuel (`fuel = maxAttempts - attemptNumber
+ 1`, so the loop body runs while `attemptNumber <= maxAttempts`), and the
engine also returns the list of attempt records (context passed in, outcome,
validation verdict) that the run produced; the JavaScript function's return
value is the first component.
-/

/-- Result of a JavaScript call: a value or a thrown error. -/
inductive JsResult (T : Type) where
  | ok (value : T)
  | thrown (message : String)
deriving DecidableEq

/-- The `LastAttemptResult` context object of src/utils/retry.ts. -/
structure LastAttemptResult (T : Type) where
  failureReason : Option String
  previousResult : Option T
deriving DecidableEq

/-- One attempt of a run: the context the engine passed to `attempt`, the
attempt's outcome, and (for non-throwing attempts) the verdict of `validate`
(`none` is the literal `true`, `some reason` a failure string). -/
structure AttemptRecord (T : Type) where
  ctx : Option (LastAttemptResult T)
  outcome : JsResult T
  validation : Option (Option String)
deriving DecidableEq

/-- The tag prepended to a caught error when it becomes a failure reason. -/
def runErrorTag : String := "実行エラー: "

/-- The error message of the final `throw`. -/
def exhaustedMessage (maxAttempts : Nat) : String :=
  "Failed after " ++ toString maxAttempts ++ " attempts with no valid result"

/-- JavaScript `x || undefined` on an optional result value. -/
def orUndefined {T : Type} (isFalsy : T → Bool) : Option T → Option T
  | none => none
  | some r => if isFalsy r then none else some r

/-- The post-loop tail of `retryUntilSuccess`: call the handler when it
exists and a last result exists, else return the last result when one
exists, else throw. -/
def exhaustionOutcome {T : Type} (onMaxAttemptsReached : Option (T → T))
    (lastResult : Option T) (maxAttempts : Nat) : JsResult T :=
  match onMaxAttemptsReached, lastResult with
  | some handler, some r => .ok (handler r)
  | none, some r => .ok r
  | _, none => .thrown (exhaustedMessage maxAttempts)

/-- The retry loop.  `attemptNumber` is the JavaScript loop counter; `fuel`
counts the remaining admissible iterations. -/
def retryLoop {T : Type}
    (attempt : Nat → Option (LastAttemptResult T) → JsResult T)
    (validate : T → Option String) (isFalsy : T → Bool)
    (onMaxAttemptsReached : Option (T → T)) (maxAttempts : Nat) :
    Nat → Nat → Option T → Option String →
      JsResult T × List (AttemptRecord T)
  | 0, _, lastResult, _ =>
    (exhaustionOutcome onMaxAttemptsReached lastResult maxAttempts, [])
  | fuel + 1, attemptNumber, lastResult, lastFailureReason =>
    let ctx : Option (LastAttemptResult T) :=
      if attemptNumber = 1 then none
      else some ⟨lastFailureReason, orUndefined isFalsy lastResult⟩
    match attempt attemptNumber ctx with
    | .ok result =>
      match validate result with
      | none => (.ok result, [⟨ctx, .ok result, some none⟩])
      | some reason =>
        let next := retryLoop attempt validate isFalsy onMaxAttemptsReached
          maxAttempts fuel (attemptNumber + 1) (some result) (some reason)
        (next.1, ⟨ctx, .ok result, some (some reason)⟩ :: next.2)
    | .thrown e =>
      let next := retryLoop attempt validate isFalsy onMaxAttemptsReached
        maxAttempts fuel (attemptNumber + 1) lastResult
        (some (runErrorTag ++ e))
      (next.1, ⟨ctx, .thrown e, none⟩ :: next.2)

/-- The full run of `retryUntilSuccess` (result plus attempt records). -/
def retryRun {T : Type} (maxAttempts : Nat)
    (attempt : Nat → Option (LastAttemptResult T) → JsResult T)
    (validate : T → Option String) (isFalsy : T → Bool)
    (onMaxAttemptsReached : Option (T → T)) :
    JsResult T × List (AttemptRecord T) :=
  retryLoop attempt validate isFalsy onMaxAttemptsReached maxAttempts
    maxAttempts 1 none none

/-- `retryUntilSuccess` of src/utils/retry.ts: the returned (or thrown)
value. -/
def retryUntilSuccess {T : Type} (maxAttempts : Nat)
    (attempt : Nat → Option (LastAttemptResult T) → JsResult T)
    (validate : T → Option String) (isFalsy : T → Bool)
    (onMaxAttemptsReached : Option (T → T)) : JsResult T :=
  (retryRun maxAttempts attempt validate isFalsy onMaxAttemptsReached).1

/-- The attempt records of a run, in order; its length is the number of times
`attempt` was invoked. -/
def retryAttemptTrace {T : Type} (maxAttempts : Nat)
    (attempt : Nat → Option (LastAttemptResult T) → JsResult T)
    (validate : T → Option String) (isFalsy : T → Bool)
    (onMaxAttemptsReached : Option (T → T)) : List (AttemptRecord T) :=
  (retryRun maxAttempts attempt validate isFalsy onMaxAttemptsReached).2

/-- Whether an attempt returned a value that `validate` mapped to the literal
`true`. -/
def isValidatedSuccess {T : Type} (rec : AttemptRecord T) : Bool :=
  rec.validation = some none

/-- 0-based index of the first validated success in a record list (the
attempt with 1-based index `i + 1`). -/
def firstSuccessIdx {T : Type} : List (AttemptRecord T) → Option Nat
  | [] => none
  | rec :: rest =>
    if isValidatedSuccess rec then some 0
    else (firstSuccessIdx rest).map (· + 1)

/-- The engine's `lastResult` update for one attempt record. -/
def stepLastOk {T : Type} (acc : Option T) (rec : AttemptRecord T) :
    Option T :=
  match rec.outcome with
  | .ok r => some r
  | .thrown _ => acc

/-- The engine's `lastResult` after consuming the given records, starting
from `init`. -/
def lastOkFrom {T : Type} (init : Option T) (l : List (AttemptRecord T)) :
    Option T :=
  l.foldl stepLastOk init

/-- The failure reason an attempt record leaves behind: `validate`'s string
for a validation failure, the tagged error string for a throw. -/
def recFailureReason {T : Type} (rec : AttemptRecord T) : Option String :=
  match rec.outcome, rec.validation with
  | .thrown e, _ => some (runErrorTag ++ e)
  | .ok _, some (some r) => some r
  | .ok _, _ => none

example :
    retryUntilSuccess (T := String) 3
      (fun n _ => .ok (toString n))
      (fun s => if s = "2" then none else some ("bad " ++ s))
      (fun s => s.isEmpty) none = .ok "2" := by decide

example :
    (retryAttemptTrace (T := String) 3
      (fun n _ => .ok (toString n))
      (fun s => if s = "2" then none else some ("bad " ++ s))
      (fun s => s.isEmpty) none).length = 2 := by decide

example :
    retryUntilSuccess (T := String) 2
      (fun _ _ => .thrown "boom")
      (fun _ => none) (fun s => s.isEmpty)
      (some (fun _ => "fallback")) =
    .thrown "Failed after 2 attempts with no valid result" := by decide


theorem retryLoop_trace_le {T : Type}
    (A : Nat → Option (LastAttemptResult T) → JsResult T)
    (V : T → Option String) (F : T → Bool) (M : Option (T → T)) (tot : Nat) :
    ∀ fuel n lastR lastF,
      (retryLoop A V F M tot fuel n lastR lastF).2.length ≤ fuel := by
  intro fuel
  induction fuel with
  | zero => intro n lastR lastF; simp [retryLoop]
  | succ f ih =>
    intro n lastR lastF
    simp only [retryLoop]
    cases hA : A n (if n = 1 then none
        else some ⟨lastF, orUndefined F lastR⟩) with
    | ok result =>
      cases hV : V result with
      | none => simp only [hV]; simp
      | some reason =>
        simp only [hV]
        simpa using Nat.succ_le_succ (ih (n + 1) (some result) (some reason))
    | thrown e =>
      simpa using Nat.succ_le_succ (ih (n + 1) lastR (some (runErrorTag ++ e)))

theorem retryLoop_trace_none {T : Type}
    (A : Nat → Option (LastAttemptResult T) → JsResult T)
    (V : T → Option String) (F : T → Bool) (M : Option (T → T)) (tot : Nat) :
    ∀ fuel n lastR lastF,
      firstSuccessIdx (retryLoop A V F M tot fuel n lastR lastF).2 = none →
      (retryLoop A V F M tot fuel n lastR lastF).2.length = fuel := by
  intro fuel
  induction fuel with
  | zero => intro n lastR lastF _; simp [retryLoop]
  | succ f ih =>
    intro n lastR lastF h
    simp only [retryLoop] at h ⊢
    cases hA : A n (if n = 1 then none
        else some ⟨lastF, orUndefined F lastR⟩) with
    | ok result =>
      simp only [hA] at h ⊢
      cases hV : V result with
      | none =>
        simp only [hV] at h
        simp [firstSuccessIdx, isValidatedSuccess] at h
      | some reason =>
        simp only [hV] at h ⊢
        simp only [firstSuccessIdx, isValidatedSuccess] at h
        rw [if_neg (by simp)] at h
        have h' : firstSuccessIdx
            (retryLoop A V F M tot f (n + 1) (some result) (some reason)).2 =
            none := Option.map_eq_none'.mp h
        simp [ih (n + 1) (some result) (some reason) h']
    | thrown e =>
      simp only [hA] at h ⊢
      simp only [firstSuccessIdx, isValidatedSuccess] at h
      rw [if_neg (by simp)] at h
      have h' : firstSuccessIdx
          (retryLoop A V F M tot f (n + 1) lastR
            (some (runErrorTag ++ e))).2 = none := Option.map_eq_none'.mp h
      simp [ih (n + 1) lastR (some (runErrorTag ++ e)) h']

theorem retryLoop_trace_some {T : Type}
    (A : Nat → Option (LastAttemptResult T) → JsResult T)
    (V : T → Option String) (F : T → Bool) (M : Option (T → T)) (tot : Nat) :
    ∀ fuel n lastR lastF i,
      firstSuccessIdx (retryLoop A V F M tot fuel n lastR lastF).2 = some i →
      (retryLoop A V F M tot fuel n lastR lastF).2.length = i + 1 := by
  intro fuel
  induction fuel with
  | zero => intro n lastR lastF i h; simp [retryLoop, firstSuccessIdx] at h
  | succ f ih =>
    intro n lastR lastF i h
    simp only [retryLoop] at h ⊢
    cases hA : A n (if n = 1 then none
        else some ⟨lastF, orUndefined F lastR⟩) with
    | ok result =>
      simp only [hA] at h ⊢
      cases hV : V result with
      | none =>
        simp only [hV] at h ⊢
        simp [firstSuccessIdx, isValidatedSuccess] at h
        simp [← h]
      | some reason =>
        simp only [hV] at h ⊢
        simp only [firstSuccessIdx, isValidatedSuccess] at h
        rw [if_neg (by simp)] at h
        obtain ⟨j, hj, hij⟩ := Option.map_eq_some'.mp h
        subst hij
        simp [ih (n + 1) (some result) (some reason) j hj]
    | thrown e =>
      simp only [hA] at h ⊢
      simp only [firstSuccessIdx, isValidatedSuccess] at h
      rw [if_neg (by simp)] at h
      obtain ⟨j, hj, hij⟩ := Option.map_eq_some'.mp h
      subst hij
      simp [ih (n + 1) lastR (some (runErrorTag ++ e)) j hj]

theorem retryLoop_exhaust {T : Type}
    (A : Nat → Option (LastAttemptResult T) → JsResult T)
    (V : T → Option String) (F : T → Bool) (M : Option (T → T)) (tot : Nat) :
    ∀ fuel n lastR lastF,
      firstSuccessIdx (retryLoop A V F M tot fuel n lastR lastF).2 = none →
      (retryLoop A V F M tot fuel n lastR lastF).1 =
        exhaustionOutcome M
          (lastOkFrom lastR (retryLoop A V F M tot fuel n lastR lastF).2)
          tot := by
  intro fuel
  induction fuel with
  | zero => intro n lastR lastF _; simp [retryLoop, lastOkFrom]
  | succ f ih =>
    intro n lastR lastF h
    simp only [retryLoop] at h ⊢
    cases hA : A n (if n = 1 then none
        else some ⟨lastF, orUndefined F lastR⟩) with
    | ok result =>
      simp only [hA] at h ⊢
      cases hV : V result with
      | none =>
        simp only [hV] at h
        simp [firstSuccessIdx, isValidatedSuccess] at h
      | some reason =>
        simp only [hV] at h ⊢
        simp only [firstSuccessIdx, isValidatedSuccess] at h
        rw [if_neg (by simp)] at h
        have h' : firstSuccessIdx
            (retryLoop A V F M tot f (n + 1) (some result) (some reason)).2 =
            none := Option.map_eq_none'.mp h
        have hrec := ih (n + 1) (some result) (some reason) h'
        simpa [lastOkFrom, stepLastOk] using hrec
    | thrown e =>
      simp only [hA] at h ⊢
      simp only [firstSuccessIdx, isValidatedSuccess] at h
      rw [if_neg (by simp)] at h
      have h' : firstSuccessIdx
          (retryLoop A V F M tot f (n + 1) lastR
            (some (runErrorTag ++ e))).2 = none := Option.map_eq_none'.mp h
      have hrec := ih (n + 1) lastR (some (runErrorTag ++ e)) h'
      simpa [lastOkFrom, stepLastOk] using hrec

theorem retryLoop_ctx {T : Type}
    (A : Nat → Option (LastAttemptResult T) → JsResult T)
    (V : T → Option String) (F : T → Bool) (M : Option (T → T)) (tot : Nat) :
    ∀ fuel n lastR lastF, 1 ≤ n →
      (∀ rec0 : AttemptRecord T,
        (retryLoop A V F M tot fuel n lastR lastF).2.get? 0 = some rec0 →
        rec0.ctx = (if n = 1 then none
          else some ⟨lastF, orUndefined F lastR⟩)) ∧
      (∀ (i : Nat) (rec1 : AttemptRecord T),
        (retryLoop A V F M tot fuel n lastR lastF).2.get? (i + 1) =
          some rec1 →
        ∃ rec0 : AttemptRecord T,
          (retryLoop A V F M tot fuel n lastR lastF).2.get? i = some rec0 ∧
          rec1.ctx = some ⟨recFailureReason rec0,
            orUndefined F (lastOkFrom lastR
              ((retryLoop A V F M tot fuel n lastR lastF).2.take (i + 1)))⟩) := by
  intro fuel
  induction fuel with
  | zero =>
    intro n lastR lastF hn
    constructor
    · intro rec0 h0
      simp [retryLoop] at h0
    · intro i rec1 h1
      simp [retryLoop] at h1
  | succ f ih =>
    intro n lastR lastF hn
    have hn1 : ¬(n + 1 = 1) := by omega
    simp only [retryLoop]
    cases hA : A n (if n = 1 then none
        else some ⟨lastF, orUndefined F lastR⟩) with
    | ok result =>
      cases hV : V result with
      | none =>
        simp only [hV]
        constructor
        · intro rec0 h0
          simp only [List.get?_cons_zero, Option.some.injEq] at h0
          rw [← h0]
        · intro i rec1 h1
          simp at h1
      | some reason =>
        simp only [hV]
        obtain ⟨ihHead, ihStep⟩ := ih (n + 1) (some result) (some reason)
          (by omega)
        constructor
        · intro rec0 h0
          simp only [List.get?_cons_zero, Option.some.injEq] at h0
          rw [← h0]
        · intro i rec1 h1
          cases i with
          | zero =>
            simp only [List.get?_cons_succ] at h1
            have hctx := ihHead rec1 h1
            rw [if_neg hn1] at hctx
            refine ⟨_, List.get?_cons_zero, ?_⟩
            rw [hctx]
            simp [recFailureReason, lastOkFrom, stepLastOk]
          | succ j =>
            simp only [List.get?_cons_succ] at h1
            obtain ⟨rec0, hget, hctx⟩ := ihStep j rec1 h1
            refine ⟨rec0, ?_, ?_⟩
            · simpa using hget
            · rw [hctx]
              simp [lastOkFrom, stepLastOk, List.take_succ_cons]
    | thrown e =>
      obtain ⟨ihHead, ihStep⟩ := ih (n + 1) lastR (some (runErrorTag ++ e))
        (by omega)
      constructor
      · intro rec0 h0
        simp only [List.get?_cons_zero, Option.some.injEq] at h0
        rw [← h0]
      · intro i rec1 h1
        cases i with
        | zero =>
          simp only [List.get?_cons_succ] at h1
          have hctx := ihHead rec1 h1
          rw [if_neg hn1] at hctx
          refine ⟨_, List.get?_cons_zero, ?_⟩
          rw [hctx]
          simp [recFailureReason, lastOkFrom, stepLastOk]
        | succ j =>
          simp only [List.get?_cons_succ] at h1
          obtain ⟨rec0, hget, hctx⟩ := ihStep j rec1 h1
          refine ⟨rec0, ?_, ?_⟩
          · simpa using hget
          · rw [hctx]
            simp [lastOkFrom, stepLastOk, List.take_succ_cons]

/-- C3 (confirmed): the engine invokes `attempt` exactly `k` times where `k`
is the 1-based index of the first attempt whose result validates to the
literal `true` (0-based index `i`, so `k = i + 1`), exactly `maxAttempts`
times when no attempt validates, and never more than `maxAttempts` times. -/
theorem retryUntilSuccess_attempt_count {T : Type} (maxAttempts : Nat)
    (attempt : Nat → Option (LastAttemptResult T) → JsResult T)
    (validate : T → Option String) (isFalsy : T → Bool)
    (onMaxAttemptsReached : Option (T → T)) (h : 1 ≤ maxAttempts) :
    (retryAttemptTrace maxAttempts attempt validate isFalsy
        onMaxAttemptsReached).length ≤ maxAttempts ∧
    (∀ i, firstSuccessIdx (retryAttemptTrace maxAttempts attempt validate
        isFalsy onMaxAttemptsReached) = some i →
      (retryAttemptTrace maxAttempts attempt validate isFalsy
        onMaxAttemptsReached).length = i + 1) ∧
    (firstSuccessIdx (retryAttemptTrace maxAttempts attempt validate isFalsy
        onMaxAttemptsReached) = none →
      (retryAttemptTrace maxAttempts attempt validate isFalsy
        onMaxAttemptsReached).length = maxAttempts) := by
  unfold retryAttemptTrace retryRun
  exact ⟨retryLoop_trace_le attempt validate isFalsy onMaxAttemptsReached
      maxAttempts maxAttempts 1 none none,
    fun i hi => retryLoop_trace_some attempt validate isFalsy
      onMaxAttemptsReached maxAttempts maxAttempts 1 none none i hi,
    fun hn => retryLoop_trace_none attempt validate isFalsy
      onMaxAttemptsReached maxAttempts maxAttempts 1 none none hn⟩

/-- Witness for `retryUntilSuccess_attempt_count`: attempts 1 and 2 run, the
second validates, so `attempt` is invoked exactly 2 times. -/
theorem retryUntilSuccess_attempt_count_witness :
    (1 : Nat) ≤ 3 ∧
    (retryAttemptTrace (T := String) 3 (fun n _ => .ok (toString n))
      (fun s => if s = "2" then none else some ("bad " ++ s))
      (fun s => s.isEmpty) none).length = 1 + 1 :=
  ⟨by decide,
   (retryUntilSuccess_attempt_count 3 (fun n _ => .ok (toString n))
      (fun s => if s = "2" then none else some ("bad " ++ s))
      (fun s => s.isEmpty) none (by decide)).2.1 1 (by decide)⟩

/-- C4 counterexample: `maxAttempts = 1`, the single attempt throws, and a
handler is supplied.  The claim says the handler is called with a null last
result and its return value `"fallback"` becomes the final result; the code
skips the handler and throws the retry-exhausted error instead. -/
theorem retryUntilSuccess_handler_skipped_counterexample :
    retryUntilSuccess (T := String) 1 (fun _ _ => .thrown "boom")
      (fun _ => none) (fun s => s.isEmpty) (some (fun _ => "fallback")) =
      .thrown "Failed after 1 attempts with no valid result" ∧
    retryUntilSuccess (T := String) 1 (fun _ _ => .thrown "boom")
      (fun _ => none) (fun s => s.isEmpty) (some (fun _ => "fallback")) ≠
      .ok "fallback" := by
  constructor
  · decide
  · decide

/-- C4 as amended: on exhaustion the handler is invoked only when some
attempt produced a result, with the last produced result; without a handler
the last produced result is returned as-is; when every attempt threw the
engine throws the retry-exhausted error even if a handler is supplied. -/
theorem retryUntilSuccess_exhaustion_policy {T : Type} (maxAttempts : Nat)
    (attempt : Nat → Option (LastAttemptResult T) → JsResult T)
    (validate : T → Option String) (isFalsy : T → Bool)
    (onMaxAttemptsReached : Option (T → T))
    (h : firstSuccessIdx (retryAttemptTrace maxAttempts attempt validate
      isFalsy onMaxAttemptsReached) = none) :
    retryUntilSuccess maxAttempts attempt validate isFalsy
        onMaxAttemptsReached =
      exhaustionOutcome onMaxAttemptsReached
        (lastOkFrom none (retryAttemptTrace maxAttempts attempt validate
          isFalsy onMaxAttemptsReached)) maxAttempts := by
  exact retryLoop_exhaust attempt validate isFalsy onMaxAttemptsReached
    maxAttempts maxAttempts 1 none none h

/-- Witness for `retryUntilSuccess_exhaustion_policy`: both attempts fail
validation, the handler receives the last result `"bad"` and its return
value becomes the final result. -/
theorem retryUntilSuccess_exhaustion_policy_witness :
    retryUntilSuccess (T := String) 2 (fun _ _ => .ok "bad")
      (fun _ => some "no") (fun s => s.isEmpty)
      (some (fun r => r ++ "!")) = .ok "bad!" :=
  (retryUntilSuccess_exhaustion_policy 2 (fun _ _ => .ok "bad")
    (fun _ => some "no") (fun s => s.isEmpty)
    (some (fun r => r ++ "!")) (by decide)).trans (by decide)

/-- C6 counterexample: the first attempt returns the empty string (a falsy
value) and fails validation; the context of attempt 2 then carries
`previousResult = undefined` rather than the previous output `""`, because
of the `lastResult || undefined` coercion. -/
theorem retryUntilSuccess_context_falsy_counterexample :
    ((retryAttemptTrace (T := String) 2 (fun _ _ => .ok "")
        (fun _ => some "empty") (fun s => s.isEmpty) none).map
      AttemptRecord.outcome = [.ok "", .ok ""]) ∧
    ((retryAttemptTrace (T := String) 2 (fun _ _ => .ok "")
        (fun _ => some "empty") (fun s => s.isEmpty) none).map
      AttemptRecord.ctx = [none, some ⟨some "empty", none⟩]) ∧
    some (⟨some "empty", none⟩ : LastAttemptResult String) ≠
      some ⟨some "empty", some ""⟩ := by
  refine ⟨by decide, by decide, by decide⟩

/-- C6 as amended: attempt 1 gets no context; every later attempt's context
carries the failure reason left by the directly preceding attempt
(`validate`'s string, or the tagged error string when it threw) and the last
non-throwing attempt's output as `previousResult`, coerced to absent when
that output is falsy (for strings: empty). -/
theorem retryUntilSuccess_context_spec {T : Type} (maxAttempts : Nat)
    (attempt : Nat → Option (LastAttemptResult T) → JsResult T)
    (validate : T → Option String) (isFalsy : T → Bool)
    (onMaxAttemptsReached : Option (T → T)) :
    (∀ rec0 : AttemptRecord T,
      (retryAttemptTrace maxAttempts attempt validate isFalsy
        onMaxAttemptsReached).get? 0 = some rec0 → rec0.ctx = none) ∧
    (∀ (i : Nat) (rec1 : AttemptRecord T),
      (retryAttemptTrace maxAttempts attempt validate isFalsy
        onMaxAttemptsReached).get? (i + 1) = some rec1 →
      ∃ rec0 : AttemptRecord T,
        (retryAttemptTrace maxAttempts attempt validate isFalsy
          onMaxAttemptsReached).get? i = some rec0 ∧
        rec1.ctx = some ⟨recFailureReason rec0,
          orUndefined isFalsy (lastOkFrom none
            ((retryAttemptTrace maxAttempts attempt validate isFalsy
              onMaxAttemptsReached).take (i + 1)))⟩) := by
  have h := retryLoop_ctx attempt validate isFalsy onMaxAttemptsReached
    maxAttempts maxAttempts 1 none none (le_refl 1)
  unfold retryAttemptTrace retryRun
  refine ⟨fun rec0 h0 => ?_, h.2⟩
  have := h.1 rec0 h0
  simpa using this

/-- Witness for `retryUntilSuccess_context_spec`: attempt 2's context holds
attempt 1's failure reason and its (truthy) output. -/
theorem retryUntilSuccess_context_spec_witness :
    ∃ rec0 : AttemptRecord String,
      (retryAttemptTrace (T := String) 2 (fun n _ => .ok (toString n))
        (fun _ => some "r") (fun s => s.isEmpty) none).get? 0 = some rec0 ∧
      (⟨some ⟨some "r", some "1"⟩, .ok "2", some (some "r")⟩ :
          AttemptRecord String).ctx =
        some ⟨recFailureReason rec0,
          orUndefined (fun s => s.isEmpty) (lastOkFrom none
            ((retryAttemptTrace (T := String) 2 (fun n _ => .ok (toString n))
              (fun _ => some "r") (fun s => s.isEmpty) none).take 1))⟩ :=
  (retryUntilSuccess_context_spec 2 (fun n _ => .ok (toString n))
    (fun _ => some "r") (fun s => s.isEmpty) none).2 0
    ⟨some ⟨some "r", some "1"⟩, .ok "2", some (some "r")⟩ (by decide)

/-- C10 (confirmed): with `maxAttempts < 1` the loop body never runs, so
`attempt` is never invoked and the call throws the retry-exhausted error,
for every handler (a handler's return value never becomes the result since
no attempt produced a non-null result). -/
theorem retryUntilSuccess_no_attempts {T : Type} (maxAttempts : Nat)
    (attempt : Nat → Option (LastAttemptResult T) → JsResult T)
    (validate : T → Option String) (isFalsy : T → Bool)
    (onMaxAttemptsReached : Option (T → T)) (h : maxAttempts < 1) :
    retryAttemptTrace maxAttempts attempt validate isFalsy
        onMaxAttemptsReached = [] ∧
    retryUntilSuccess maxAttempts attempt validate isFalsy
        onMaxAttemptsReached =
      JsResult.thrown (exhaustedMessage maxAttempts) := by
  have h0 : maxAttempts = 0 := by omega
  subst h0
  unfold retryAttemptTrace retryUntilSuccess retryRun retryLoop
  cases onMaxAttemptsReached <;> exact ⟨rfl, rfl⟩

/-- Witness for `retryUntilSuccess_no_attempts` at `maxAttempts = 0` with a
handler supplied. -/
theorem retryUntilSuccess_no_attempts_witness :
    (0 : Nat) < 1 ∧
    (retryAttemptTrace (T := String) 0 (fun _ _ => .ok "x")
        (fun _ => none) (fun s => s.isEmpty) (some (fun r => r)) = [] ∧
      retryUntilSuccess (T := String) 0 (fun _ _ => .ok "x")
        (fun _ => none) (fun s => s.isEmpty) (some (fun r => r)) =
        JsResult.thrown (exhaustedMessage 0)) :=
  ⟨by decide,
   retryUntilSuccess_no_attempts 0 (fun _ _ => .ok "x") (fun _ => none)
     (fun s => s.isEmpty) (some (fun r => r)) (by decide)⟩

/-!
## Degrade policy (src/translation-workflow.ts and Translator.translateChunk)

The per-chunk loop of `translateMarkdownFile` runs the chunk's stages
(translate, then proofread) inside a `try`; on a throw it pushes the original
chunk content and continues.  The stages are external effectful calls,
modelled as one function of the chunk and of the previous translations
accumulated so far.  `Translator.translateChunk` drives the legacy retry
engine of src/retry-utils.ts (`attempt(attemptNumber)` / boolean `isSuccess`)
whose exhaustion handler returns `{ isValid: true, adjustedText: text }`,
falling back to the untranslated input.
-/

/-- The per-chunk processing loop of `translateMarkdownFile` (step 2): each
chunk's stage output (or its original content, when the stage threw) is
appended to both the processed list and the `previousTranslations` context. -/
def workflowProcessChunks
    (stage : ChunkInfo → List (List Char) → JsResult (List Char)) :
    List ChunkInfo → List (List Char) → List (List Char)
  | [], _ => []
  | chunk :: rest, previousTranslations =>
    let processed :=
      match stage chunk previousTranslations with
      | .ok t => t
      | .thrown _ => chunk.content
    processed ::
      workflowProcessChunks stage rest (previousTranslations ++ [processed])

/-- The loop of `retryUntilSuccess` in src/retry-utils.ts: `attempt` receives
the attempt number, `isSuccess` is a boolean check, and the exhaustion tail
is the same handler / last-result / throw cascade. -/
def ruRetryLoop {T : Type} (attempt : Nat → JsResult T) (isSuccess : T → Bool)
    (onMaxAttemptsReached : Option (T → T)) (maxAttempts : Nat) :
    Nat → Nat → Option T → JsResult T
  | 0, _, lastResult =>
    exhaustionOutcome onMaxAttemptsReached lastResult maxAttempts
  | fuel + 1, attemptNumber, lastResult =>
    match attempt attemptNumber with
    | .ok result =>
      if isSuccess result then .ok result
      else ruRetryLoop attempt isSuccess onMaxAttemptsReached maxAttempts
        fuel (attemptNumber + 1) (some result)
    | .thrown _ =>
      ruRetryLoop attempt isSuccess onMaxAttemptsReached maxAttempts
        fuel (attemptNumber + 1) lastResult

/-- `retryUntilSuccess` of src/retry-utils.ts. -/
def retryUntilSuccessLegacy {T : Type} (maxAttempts : Nat)
    (attempt : Nat → JsResult T) (isSuccess : T → Bool)
    (onMaxAttemptsReached : Option (T → T)) : JsResult T :=
  ruRetryLoop attempt isSuccess onMaxAttemptsReached maxAttempts maxAttempts
    1 none

/-- `Translator.translateChunk`: each attempt invokes the model chain (an
external call, modelled per attempt number), validates the line count of its
output against the input, and on exhaustion the handler substitutes the
original text as a valid result; the adjusted text of the final validation
result is returned. -/
def translateChunk (llm : Nat → JsResult (List Char)) (text : List Char)
    (maxRetries : Nat) : JsResult (List Char) :=
  match retryUntilSuccessLegacy maxRetries
      (fun n =>
        match llm n with
        | .ok translatedText => .ok (validateLineCount text translatedText)
        | .thrown e => .thrown e)
      (fun validation => validation.isValid)
      (some (fun _ => ⟨true, text⟩)) with
  | .ok validation => .ok validation.adjustedText
  | .thrown e => .thrown e

/-- The engine's `lastResult` after attempts `n, …, n + fuel - 1`. -/
def ruLastOk {T : Type} (attempt : Nat → JsResult T) :
    Nat → Nat → Option T → Option T
  | 0, _, acc => acc
  | fuel + 1, n, acc =>
    ruLastOk attempt fuel (n + 1)
      (match attempt n with
       | .ok t => some t
       | .thrown _ => acc)

theorem ruLastOk_isSome_of_acc {T : Type} (attempt : Nat → JsResult T) :
    ∀ fuel n acc, (acc : Option T).isSome →
      (ruLastOk attempt fuel n acc).isSome := by
  intro fuel
  induction fuel with
  | zero => intro n acc h; simpa [ruLastOk] using h
  | succ f ih =>
    intro n acc h
    simp only [ruLastOk]
    cases hA : attempt n with
    | ok t => exact ih (n + 1) (some t) rfl
    | thrown e => exact ih (n + 1) acc h

theorem ruLastOk_isSome {T : Type} (attempt : Nat → JsResult T) :
    ∀ fuel n acc,
      (∃ k t, n ≤ k ∧ k < n + fuel ∧ attempt k = .ok t) →
      (ruLastOk attempt fuel n acc).isSome := by
  intro fuel
  induction fuel with
  | zero =>
    intro n acc ⟨k, t, hk1, hk2, _⟩
    omega
  | succ f ih =>
    intro n acc ⟨k, t, hk1, hk2, hok⟩
    simp only [ruLastOk]
    cases hA : attempt n with
    | ok u =>
      exact ruLastOk_isSome_of_acc attempt f (n + 1) (some u) rfl
    | thrown e =>
      have hkn : n + 1 ≤ k := by
        rcases Nat.eq_or_lt_of_le hk1 with heq | hlt
        · subst heq; rw [hA] at hok; exact absurd hok (by simp)
        · omega
      exact ih (n + 1) _ ⟨k, t, hkn, by omega, hok⟩

theorem ruRetryLoop_exhaust {T : Type} (attempt : Nat → JsResult T)
    (isSuccess : T → Bool) (M : Option (T → T)) (tot : Nat) :
    ∀ fuel n lastR,
      (∀ k t, n ≤ k → k < n + fuel → attempt k = .ok t →
        isSuccess t = false) →
      ruRetryLoop attempt isSuccess M tot fuel n lastR =
        exhaustionOutcome M (ruLastOk attempt fuel n lastR) tot := by
  intro fuel
  induction fuel with
  | zero => intro n lastR _; simp [ruRetryLoop, ruLastOk]
  | succ f ih =>
    intro n lastR hfail
    simp only [ruRetryLoop, ruLastOk]
    cases hA : attempt n with
    | ok result =>
      have hs : isSuccess result = false :=
        hfail n result (le_refl n) (by omega) hA
      simp only [hs]
      simp only [Bool.false_eq_true, if_false]
      exact ih (n + 1) (some result)
        (fun k t hk1 hk2 hok => hfail k t (by omega) (by omega) hok)
    | thrown e =>
      exact ih (n + 1) lastR
        (fun k t hk1 hk2 hok => hfail k t (by omega) (by omega) hok)

example :
    translateChunk (fun _ => .ok "x\ny".toList) "a".toList 3 =
      .ok "a".toList := by decide

example :
    translateChunk (fun _ => .ok "x".toList) "a".toList 3 =
      .ok "x".toList := by decide

example :
    translateChunk (fun _ => .thrown "api down") "a".toList 2 =
      .thrown "Failed after 2 attempts with no valid result" := by decide

theorem workflowProcessChunks_length
    (stage : ChunkInfo → List (List Char) → JsResult (List Char)) :
    ∀ (chunks : List ChunkInfo) (prev : List (List Char)),
      (workflowProcessChunks stage chunks prev).length = chunks.length := by
  intro chunks
  induction chunks with
  | nil => intro prev; rfl
  | cons c cs ih => intro prev; simp [workflowProcessChunks, ih]

theorem workflowProcessChunks_degrade
    (stage : ChunkInfo → List (List Char) → JsResult (List Char)) :
    ∀ (chunks : List ChunkInfo) (prev : List (List Char)) (i : Nat)
      (chunk : ChunkInfo) (e : String),
      chunks.get? i = some chunk →
      stage chunk (prev ++ (workflowProcessChunks stage chunks prev).take i) =
        .thrown e →
      (workflowProcessChunks stage chunks prev).get? i =
        some chunk.content := by
  intro chunks
  induction chunks with
  | nil => intro prev i chunk e hget; simp at hget
  | cons c0 cs ih =>
    intro prev i chunk e hget hstage
    cases i with
    | zero =>
      simp only [List.get?_cons_zero, Option.some.injEq] at hget
      subst hget
      simp only [List.take_zero, List.append_nil] at hstage
      simp only [workflowProcessChunks]
      simp [hstage]
    | succ j =>
      simp only [List.get?_cons_succ] at hget
      simp only [workflowProcessChunks] at hstage ⊢
      simp only [List.take_succ_cons] at hstage
      have hre : ∀ (a : List (List Char)) (b : List Char)
          (c : List (List Char)), a ++ b :: c = (a ++ [b]) ++ c := by
        intro a b c
        simp
      rw [hre] at hstage
      simp only [List.get?_cons_succ]
      exact ih _ j chunk e hget hstage

theorem translateChunk_exhaust (llm : Nat → JsResult (List Char))
    (text : List Char) (maxRetries : Nat)
    (hfail : ∀ n t, 1 ≤ n → n ≤ maxRetries → llm n = .ok t →
      (validateLineCount text t).isValid = false)
    (hsome : ∃ n, 1 ≤ n ∧ n ≤ maxRetries ∧ ∃ t, llm n = .ok t) :
    translateChunk llm text maxRetries = .ok text := by
  obtain ⟨n0, hn1, hn2, t0, hok⟩ := hsome
  unfold translateChunk retryUntilSuccessLegacy
  have hfail' : ∀ k v, 1 ≤ k → k < 1 + maxRetries →
      (fun n =>
        match llm n with
        | .ok translatedText =>
            JsResult.ok (validateLineCount text translatedText)
        | .thrown e => JsResult.thrown e) k = .ok v →
      (fun validation : ValidationResult => validation.isValid) v = false := by
    intro k v hk1 hk2 hkv
    cases hllm : llm k with
    | ok t =>
      simp only [hllm] at hkv
      simp only [JsResult.ok.injEq] at hkv
      subst hkv
      exact hfail k t hk1 (by omega) hllm
    | thrown e =>
      simp only [hllm] at hkv
      exact absurd hkv (by simp)
  rw [ruRetryLoop_exhaust _ _ _ maxRetries maxRetries 1 none
    (fun k v hk1 hk2 hkv => hfail' k v hk1 (by omega) hkv)]
  have hs : (ruLastOk
      (fun n =>
        match llm n with
        | .ok translatedText =>
            JsResult.ok (validateLineCount text translatedText)
        | .thrown e => JsResult.thrown e) maxRetries 1 none).isSome := by
    apply ruLastOk_isSome
    exact ⟨n0, validateLineCount text t0, hn1, by omega, by simp [hok]⟩
  obtain ⟨v, hv⟩ := Option.isSome_iff_exists.mp hs
  rw [hv]
  simp [exhaustionOutcome]

/-- C9 (confirmed): a chunk whose stage processing throws keeps its original
content while the loop continues over all chunks (the processed list always
has one entry per chunk), and `Translator.translateChunk` with exhausted
retries (no attempt validating, at least one attempt returning) falls back
to its pre-stage input text. -/
theorem workflow_degrade_policy :
    (∀ (stage : ChunkInfo → List (List Char) → JsResult (List Char))
       (chunks : List ChunkInfo) (prev : List (List Char)),
      (workflowProcessChunks stage chunks prev).length = chunks.length) ∧
    (∀ (stage : ChunkInfo → List (List Char) → JsResult (List Char))
       (chunks : List ChunkInfo) (prev : List (List Char)) (i : Nat)
       (chunk : ChunkInfo) (e : String),
      chunks.get? i = some chunk →
      stage chunk (prev ++ (workflowProcessChunks stage chunks prev).take i) =
        .thrown e →
      (workflowProcessChunks stage chunks prev).get? i =
        some chunk.content) ∧
    (∀ (llm : Nat → JsResult (List Char)) (text : List Char)
       (maxRetries : Nat),
      (∀ n t, 1 ≤ n → n ≤ maxRetries → llm n = .ok t →
        (validateLineCount text t).isValid = false) →
      (∃ n, 1 ≤ n ∧ n ≤ maxRetries ∧ ∃ t, llm n = .ok t) →
      translateChunk llm text maxRetries = .ok text) :=
  ⟨workflowProcessChunks_length, workflowProcessChunks_degrade,
   translateChunk_exhaust⟩

/-- Witness for `workflow_degrade_policy`: a throwing stage leaves the chunk
content unchanged, and exhausted line-count retries return the input text. -/
theorem workflow_degrade_policy_witness :
    (workflowProcessChunks (fun _ _ => .thrown "stage failed")
        [createChunkInfo ["# t".toList] 1 1] []).get? 0 =
      some (createChunkInfo ["# t".toList] 1 1).content ∧
    translateChunk (fun _ => .ok "x\ny".toList) "a".toList 2 =
      .ok "a".toList :=
  ⟨workflow_degrade_policy.2.1 (fun _ _ => .thrown "stage failed")
      [createChunkInfo ["# t".toList] 1 1] [] 0
      (createChunkInfo ["# t".toList] 1 1) "stage failed" (by decide) rfl,
   workflow_degrade_policy.2.2 (fun _ => .ok "x\ny".toList) "a".toList 2
     (by
       intro n t h1 h2 h
       simp only [JsResult.ok.injEq] at h
       subst h
       decide)
     ⟨1, by decide, by decide, "x\ny".toList, rfl⟩⟩
